import Mathlib

/-!
Verification of the astroML plotting helpers `scatter_contour.py` and
`smooth_contour.py` against their specification.

The Python source is shallowly embedded: numeric data is modelled by `ℚ`
(the repository only moves values between library calls, so exact
arithmetic is a faithful model of the data flow), segment arrays by
`List (ℚ × ℚ)`, kind arrays by `List ℕ`.  External library routines
(scipy's `splprep`/`splev`, matplotlib's `Cntr.trace` and
`Path.contains_points`) are abstract parameters; numpy's `histogram2d`
binning convention is modelled concretely since the claims quantify over
it.
-/

namespace AstroML

/-- A 2-D data point, as one row of a segment array. -/
abbrev Point : Type := ℚ × ℚ

/-- A contour segment: an `(N, 2)` vertex array, one `Point` per row. -/
abbrev Seg : Type := List Point

/-- A path-code (kind) array accompanying a segment in filled contours. -/
abbrev Kind : Type := List ℕ

/-- Whether index `i` is the last occurrence of the value `A[i]` in `A`.
These are exactly the indices stored in the dictionary `ud` built by
`unique_vec` (the loop keeps, for each distinct row, the index of its
last occurrence). -/
def isLastOcc {α : Type} [DecidableEq α] (A : List α) (i : ℕ) : Bool :=
  match A.get? i with
  | some v => !((A.drop (i + 1)).contains v)
  | none => false

/-- The sorted array `gdx` of `unique_vec`: the last-occurrence index of
each distinct row, in increasing order (`np.sort(ud.values())`; filtering
`List.range` yields the same indices already sorted). -/
def gdx {α : Type} [DecidableEq α] (A : List α) : List ℕ :=
  (List.range A.length).filter (isLastOcc A)

/-- Embedding of `unique_vec(A)` (smooth_contour.py lines 97-108): keeps
the last occurrence of every distinct row; if the first row recurs later
(`gdx[0] != 0`), index 0 is prepended and the periodic flag `per` is 1.
(For empty `A` the Python code raises an `IndexError`; the claims only
concern nonempty inputs.) -/
def uniqueVec {α : Type} [DecidableEq α] [Inhabited α] (A : List α) :
    List α × ℕ :=
  let g := gdx A
  if g.head? = some 0 then (g.map (fun i => A.getD i default), 0)
  else ((0 :: g).map (fun i => A.getD i default), 1)


/-- The smoothing parameters popped by `SmoothContour.__init__`
(smooth_contour.py lines 27-29): `smooth` (default 0), `k` (default 3)
and `int_number` (default 100). -/
structure SCParams where
  smooth : ℚ
  k : ℕ
  int_number : ℕ
deriving DecidableEq

/-- Abstract interface to scipy's spline routines: `splprep` fits a
spline representation `tck` to a point list (given the smoothing factor
`s`, the degree `k` and the periodic flag `per`), and `splev` evaluates
it at one parameter value.  The repository treats both as black boxes. -/
structure SplineLib (T : Type) where
  splprep : List Point → ℚ → ℕ → ℕ → T
  splev : ℚ → T → Point

/-- `np.linspace(0, 1, n)`: the `n` evenly spaced parameter values
`self.unew` at which each smoothed contour is evaluated. -/
def linspace01 (n : ℕ) : List ℚ :=
  List.map (fun i : ℕ => if n ≤ 1 then 0 else (i : ℚ) / ((n : ℚ) - 1))
    (List.range n)

/-- `self.kinds_fill` (smooth_contour.py lines 30-31): an array of
`int_number` twos whose first entry is set to 1. -/
def kindsFill (n : ℕ) : Kind := (List.replicate n 2).set 0 1

/-- Elementwise mean of two points, as in
`np.dstack([seg, seg2]).mean(axis=2)`. -/
def meanPt (p q : Point) : Point := ((p.1 + q.1) / 2, (p.2 + q.2) / 2)

/-- Embedding of `SmoothContour._smooth_segs` (smooth_contour.py lines
35-49): deduplicate with `unique_vec`; if more than `k` unique points
remain, fit a spline (periodic flag = `per` from `unique_vec`) and
replace the segment by its values at the `int_number` parameters of
`unew`; with `avg` and `smooth > 0`, average with a reversed fit; a
non-`None` kind array is replaced by `kinds_fill`. -/
def smoothSegs {T : Type} (L : SplineLib T) (p : SCParams) (seg : Seg)
    (kind : Option Kind) (avg : Bool) : Seg × Option Kind :=
  let u := uniqueVec seg
  if p.k < u.1.length then
    let tck := L.splprep u.1 p.smooth p.k u.2
    let seg1 := (linspace01 p.int_number).map (fun t => L.splev t tck)
    let segR :=
      if 0 < p.smooth ∧ avg = true then
        let tck2 := L.splprep u.1.reverse p.smooth p.k u.2
        let seg2 := ((linspace01 p.int_number).reverse).map
          (fun t => L.splev t tck2)
        List.zipWith meanPt seg1 seg2
      else seg1
    (segR, kind.map (fun _ => kindsFill p.int_number))
  else (seg, kind)

/-- `np.where(kinds == 1)`: the (sorted) indices of the path breaks in a
kind array (smooth_contour.py line 67). -/
def breakIdx (kind : Kind) : List ℕ :=
  (List.range kind.length).filter (fun i => kind.get? i == some 1)

/-- One iteration of the split loop (smooth_contour.py lines 69-72):
slice the segment and kind arrays between two consecutive break indices
and smooth the slice with `avg=True`. -/
def pieceFn {T : Type} (L : SplineLib T) (p : SCParams) (seg : Seg)
    (kind : Kind) (ab : ℕ × ℕ) : Seg × Kind :=
  let r := smoothSegs L p ((seg.drop ab.1).take (ab.2 - ab.1))
    (some ((kind.drop ab.1).take (ab.2 - ab.1))) true
  (r.1, r.2.getD [])

/-- The cut positions `ndx` of the split loop: the break indices plus the
final `len(kinds[i])` appended at smooth_contour.py line 68. -/
def ndxOf (kind : Kind) : List ℕ := breakIdx kind ++ [kind.length]

/-- Embedding of the per-segment body of the filled branch of
`SmoothContour._get_allsegs_and_allkinds` (smooth_contour.py lines
65-82): if the kind array holds more than one break, split the segment
at the breaks (consecutive pairs of `ndx`), smooth each piece (with
`avg=True`) and re-combine with `np.vstack`/`np.append` (flattening the
processed pieces); otherwise smooth the whole segment (with the default
`avg=False`). -/
def processFilledSeg {T : Type} (L : SplineLib T) (p : SCParams)
    (sk : Seg × Kind) : Seg × Kind :=
  if 1 < sk.2.count 1 then
    ((((ndxOf sk.2).zip (ndxOf sk.2).tail).map
        (fun ab => (pieceFn L p sk.1 sk.2 ab).1)).flatten,
     (((ndxOf sk.2).zip (ndxOf sk.2).tail).map
        (fun ab => (pieceFn L p sk.1 sk.2 ab).2)).flatten)
  else
    ((smoothSegs L p sk.1 (some sk.2) false).1,
     (smoothSegs L p sk.1 (some sk.2) false).2.getD [])

/-- Embedding of the filled (`self.filled`) branch of
`SmoothContour._get_allsegs_and_allkinds` (smooth_contour.py lines
56-84): for each level pair the C tracer's output - modelled as the
given list of (segment, kind) pairs, the first and second halves of
`nlist` zipped - is processed elementwise and appended to
`allsegs`/`allkinds`. -/
def getAllsegsAndAllkindsFilled {T : Type} (L : SplineLib T) (p : SCParams)
    (traces : List (List (Seg × Kind))) :
    List (List Seg) × List (List Kind) :=
  (traces.map (fun lvl => lvl.map (fun sk => (processFilledSeg L p sk).1)),
   traces.map (fun lvl => lvl.map (fun sk => (processFilledSeg L p sk).2)))

/-- Embedding of the line (`not self.filled`) branch of
`SmoothContour._get_allsegs_and_allkinds` (smooth_contour.py lines
85-94): `allkinds` is `None` and each traced segment is smoothed with
`kind=None` and `avg=True`. -/
def getAllsegsAndAllkindsLine {T : Type} (L : SplineLib T) (p : SCParams)
    (traces : List (List Seg)) : List (List Seg) × Option (List (List Kind)) :=
  (traces.map (fun lvl => lvl.map (fun s => (smoothSegs L p s none true).1)),
   none)


/-- Model of numpy's bin assignment, as used by `np.histogram2d` with
explicit monotone bin edges: value `v` falls in bin `i` iff
`edges[i] <= v < edges[i+1]`, except that the last bin also includes its
right edge (`v == edges[-1]` lands in bin `nbins - 1`). -/
def binIdx (edges : List ℚ) (v : ℚ) : Option ℕ :=
  (List.range (edges.length - 1)).find? (fun i =>
    decide (edges.getD i 0 ≤ v) &&
      (decide (v < edges.getD (i + 1) 0) ||
        (i + 2 == edges.length && decide (v ≤ edges.getD (i + 1) 0))))

/-- Model of `np.histogram2d(x, y, bins=[xe, ye])[0]`: the
`(len(xe)-1, len(ye)-1)` matrix whose `(i, j)` entry counts the data
points whose x falls in x-bin `i` and whose y falls in y-bin `j`. -/
def histogram2d (x y : List ℚ) (xe ye : List ℚ) : List (List ℕ) :=
  (List.range (xe.length - 1)).map (fun i =>
    (List.range (ye.length - 1)).map (fun j =>
      ((x.zip y).filter (fun pt =>
        binIdx xe pt.1 == some i && binIdx ye pt.2 == some j)).length))

/-- The optional log transform of scatter_contour.py lines 78-79: with
`log_counts` the contoured array is `log10(1 + H)`. `np.log10` is an
external numerical routine, abstracted as the function argument
`log10`. -/
def transformH (log_counts : Bool) (log10 : ℚ → ℚ)
    (H : List (List ℕ)) : List (List ℚ) :=
  if log_counts then H.map (List.map (fun (c : ℕ) => log10 (1 + (c : ℚ))))
  else H.map (List.map (fun (c : ℕ) => (c : ℚ)))

/-- The threshold actually compared against (scatter_contour.py line
80): transformed alongside `H` when `log_counts` is set. -/
def thresholdOf (log_counts : Bool) (log10 : ℚ → ℚ) (threshold : ℚ) : ℚ :=
  if log_counts then log10 (1 + threshold) else threshold

/-- The scatter-point selection loop of scatter_contour.py lines
117-121: a point is kept iff it lies, with half-open comparisons
`xbins[i] <= x < xbins[i+1]` and `ybins[j] <= y < ybins[j+1]`, in some
bin `(i, j)` whose (transformed) count satisfies
`0 < H[i][j] < threshold`. -/
def pointSparse (xe ye : List ℚ) (Hq : List (List ℚ)) (thr : ℚ)
    (pt : Point) : Bool :=
  (List.range (xe.length - 1)).any (fun i =>
    (List.range (ye.length - 1)).any (fun j =>
      decide (0 < (Hq.getD i []).getD j 0) &&
        decide ((Hq.getD i []).getD j 0 < thr) &&
        decide (xe.getD i 0 ≤ pt.1) && decide (pt.1 < xe.getD (i + 1) 0) &&
        decide (ye.getD j 0 ≤ pt.2) && decide (pt.2 < ye.getD (j + 1) 0)))

/-- The observable effects of one `scatter_contour` call that the claims
refer to: the array handed to the contouring routine, the extent, the
threshold after the optional log transform, the selected sparse points
`X` and the finally plotted points `Xplot`. -/
structure ScatterResult where
  contoured : List (List ℚ)
  extent : List ℚ
  thresholdUsed : ℚ
  Xpts : List Point
  Xplot : List Point
deriving DecidableEq

/-- Embedding of `scatter_contour` (scatter_contour.py lines 55-143),
restricted to the data flow: the histogram (with explicit bin edges `xe`,
`ye` as `histogram2d_args`), the optional log transform, the contoured
array `H.T` with extent from the same bin edges, the sparse-point
selection, and the removal of points inside the first outline polygon
when the outline has at least one segment.  The outline segments
`outline0` (= `outline.allsegs[0]`) and the point-in-polygon test
`inside` (`Path(...).contains_points` / `nx.points_inside_poly`) come
from matplotlib and are abstract parameters. -/
def scatterContour (x y : List ℚ) (xe ye : List ℚ) (threshold : ℚ)
    (log_counts : Bool) (log10 : ℚ → ℚ) (outline0 : List Seg)
    (inside : Seg → Point → Bool) : ScatterResult :=
  let H := histogram2d x y xe ye
  let Hq := transformH log_counts log10 H
  let thr := thresholdOf log_counts log10 threshold
  let X := (x.zip y).filter (pointSparse xe ye Hq thr)
  { contoured := Hq.transpose
    extent := [xe.getD 0 0, xe.getD (xe.length - 1) 0,
      ye.getD 0 0, ye.getD (ye.length - 1) 0]
    thresholdUsed := thr
    Xpts := X
    Xplot :=
      match outline0 with
      | [] => X
      | poly :: _ => X.filter (fun pt => !(inside poly pt)) }

/-- A Python value as it travels through the keyword plumbing of
smooth_contour.py: rationals, integers, booleans, an axes object
(identified by a number), or any other caller-supplied object (an opaque
token). -/
inductive PyVal where
  | rat (q : ℚ)
  | nat (n : ℕ)
  | bool (b : Bool)
  | axes (id : ℕ)
  | tok (n : ℕ)
deriving DecidableEq

/-- A Python keyword dictionary with string keys, modelled
extensionally. -/
def Kwargs : Type := String → Option PyVal

/-- `kwargs[key] = v`. -/
def kwSet (m : Kwargs) (key : String) (v : PyVal) : Kwargs :=
  fun s => if s = key then some v else m s

/-- `kwargs.pop(key)` (no default): the looked-up value and the
dictionary without the key. -/
def kwPop (m : Kwargs) (key : String) : Option PyVal × Kwargs :=
  (m key, fun s => if s = key then none else m s)

/-- `kwargs.pop(key, d)`: like `kwPop` but substituting the default when
the key is absent. -/
def kwPopD (m : Kwargs) (key : String) (d : PyVal) : PyVal × Kwargs :=
  ((m key).getD d, fun s => if s = key then none else m s)

/-- Python truthiness of the values we model, as used by
`ax.hold(hold)`. -/
def truthy : PyVal → Bool
  | .rat q => q ≠ 0
  | .nat n => n ≠ 0
  | .bool b => b
  | .axes _ => true
  | .tok _ => true

/-- What `SmoothContour.__init__` (smooth_contour.py lines 10-33) does
to its keywords before delegating: pop `smooth` (default 0), `k`
(default 3) and `int_number` (default 100), then hand the axes, the
positional arguments and the remaining keywords to
`ContourSet.__init__`. -/
structure InitRecord where
  smoothV : PyVal
  kV : PyVal
  intV : PyVal
  ctorAx : ℕ
  ctorArgs : List PyVal
  ctorKwargs : Kwargs

/-- Embedding of the keyword handling of `SmoothContour.__init__`. -/
def smoothContourInit (axId : ℕ) (args : List PyVal) (kwargs : Kwargs) :
    InitRecord :=
  let s1 := kwPopD kwargs "smooth" (.rat 0)
  let s2 := kwPopD s1.2 "k" (.nat 3)
  let s3 := kwPopD s2.2 "int_number" (.nat 100)
  { smoothV := s1.1, kV := s2.1, intV := s3.1,
    ctorAx := axId, ctorArgs := args, ctorKwargs := s3.2 }

/-- The observable effects of one `smooth_contour`/`smooth_contourf`
call: which constructor call was made (its keyword routing), whether it
raised, the hold state set while the constructor ran, and the final
per-axes hold states. -/
structure ContourCallResult where
  initRec : InitRecord
  result : Except ℕ Unit
  targetAx : ℕ
  duringHold : Bool
  finalHoldOf : ℕ → Bool

/-- Embedding of `smooth_contour` / `smooth_contourf`
(smooth_contour.py lines 110-138); the two differ only in the `filled`
value forced into the keywords.  `ctorRaises` abstracts whether
`ContourSet.__init__` raises (with an abstract error code) on the given
inputs; `gcaAx` is the current axes (`pyp.gca()`), `holdOf` the hold
state of each axes before the call.  The `try`/`finally` restores
`washold` on both the normal and the raising path. -/
def smoothContourCall (filledV : Bool)
    (ctorRaises : ℕ → List PyVal → Kwargs → Option ℕ)
    (gcaAx : ℕ) (holdOf : ℕ → Bool) (args : List PyVal)
    (kwargs : Kwargs) : ContourCallResult :=
  let kw1 := kwSet kwargs "filled" (.bool filledV)
  let pax := kwPop kw1 "ax"
  let axId := match pax.1 with
    | some (.axes i) => i
    | _ => gcaAx
  let washold := holdOf axId
  let phold := kwPop pax.2 "hold"
  let holdDuring := match phold.1 with
    | some v => truthy v
    | none => washold
  let rec0 := smoothContourInit axId args phold.2
  let res : Except ℕ Unit :=
    match ctorRaises rec0.ctorAx rec0.ctorArgs rec0.ctorKwargs with
    | some e => .error e
    | none => .ok ()
  { initRec := rec0, result := res, targetAx := axId,
    duringHold := holdDuring,
    finalHoldOf := fun i => if i = axId then washold else holdOf i }

/-- Embedding of the matplotlib-version fallback of scatter_contour.py
lines 128-135: the `Path(...).contains_points` route is attempted and
any exception from it is swallowed by the bare `except:`, which then
runs the `nxutils` route instead. -/
def pathFallback (primary fallback : Except ℕ (List Bool)) :
    Except ℕ (List Bool) :=
  match primary with
  | .ok v => .ok v
  | .error _ => fallback

/-- A concrete spline backend used to instantiate the abstract scipy
interface in witnesses and counterexamples: the fitted representation is
just the periodic flag that `splprep` received, and evaluation returns
it as a constant point. -/
def LFlag : SplineLib ℕ where
  splprep := fun _ _ _ per => per
  splev := fun _ tck => ((tck : ℚ), 0)

theorem isLastOcc_cons_succ {α : Type} [DecidableEq α] (a : α) (t : List α)
    (i : ℕ) : isLastOcc (a :: t) (i + 1) = isLastOcc t i := by
  simp [isLastOcc]

theorem isLastOcc_cons_zero {α : Type} [DecidableEq α] (a : α) (t : List α) :
    isLastOcc (a :: t) 0 = !(t.contains a) := by
  simp [isLastOcc]

theorem gdx_cons {α : Type} [DecidableEq α] (a : α) (t : List α) :
    gdx (a :: t) =
      (if a ∈ t then [] else [0]) ++ (gdx t).map (· + 1) := by
  unfold gdx
  have hr : List.range (a :: t).length =
      0 :: (List.range t.length).map (· + 1) := by
    simp [List.range_succ_eq_map, Nat.succ_eq_add_one]
  rw [hr, List.filter_cons]
  rw [isLastOcc_cons_zero]
  have hm : ((List.range t.length).map (· + 1)).filter (isLastOcc (a :: t)) =
      ((List.range t.length).filter (isLastOcc t)).map (· + 1) := by
    rw [List.filter_map]
    congr 1
  by_cases h : a ∈ t
  · simp [h, hm]
  · simp [h, hm]

theorem gdx_length {α : Type} [DecidableEq α] (A : List α) :
    (gdx A).length = A.toFinset.card := by
  induction A with
  | nil => simp [gdx]
  | cons a t ih =>
    rw [gdx_cons]
    by_cases h : a ∈ t
    · simp [h, ih]
    · simp [h, ih]

theorem gdx_head_cons {α : Type} [DecidableEq α] (a : α) (t : List α) :
    ((gdx (a :: t)).head? = some 0) ↔ a ∉ t := by
  rw [gdx_cons]
  by_cases h : a ∈ t
  · simp only [h, if_pos, List.nil_append, not_true_eq_false, iff_false]
    intro hc
    rw [List.head?_map] at hc
    cases hg : (gdx t).head? with
    | none => rw [hg] at hc; simp at hc
    | some i => rw [hg] at hc; simp at hc
  · simp [h]

theorem uniqueVec_per_cons {α : Type} [DecidableEq α] [Inhabited α]
    (a : α) (t : List α) :
    (uniqueVec (a :: t)).2 = if a ∈ t then 1 else 0 := by
  by_cases h : a ∈ t
  · have hh : ¬((gdx (a :: t)).head? = some 0) := by
      rw [gdx_head_cons]; simpa using h
    simp [uniqueVec, hh, h]
  · have hh : (gdx (a :: t)).head? = some 0 := (gdx_head_cons a t).mpr h
    simp [uniqueVec, hh, h]

theorem uniqueVec_fst_length {α : Type} [DecidableEq α] [Inhabited α]
    (A : List α) :
    (uniqueVec A).1.length = A.toFinset.card + (uniqueVec A).2 := by
  cases A with
  | nil => simp [uniqueVec, gdx]
  | cons a t =>
    by_cases h : a ∈ t
    · have hh : ¬((gdx (a :: t)).head? = some 0) := by
        rw [gdx_head_cons]; simpa using h
      simp [uniqueVec, hh, gdx_length, List.toFinset_cons, h]
    · have hh : (gdx (a :: t)).head? = some 0 := (gdx_head_cons a t).mpr h
      simp [uniqueVec, hh, gdx_length, List.toFinset_cons, h]

theorem uniqueVec_fst_head {α : Type} [DecidableEq α] [Inhabited α]
    (a : α) (t : List α) :
    (uniqueVec (a :: t)).1.head? = some a := by
  by_cases h : a ∈ t
  · have hh : ¬((gdx (a :: t)).head? = some 0) := by
      rw [gdx_head_cons]; simpa using h
    simp [uniqueVec, hh]
  · have hh : (gdx (a :: t)).head? = some 0 := (gdx_head_cons a t).mpr h
    simp [uniqueVec, hh]

/-- A nonempty contiguous slice of a segment never has more unique points
(in the sense of `unique_vec`) than the whole segment: the key fact behind
the no-smoothing case of `_get_allsegs_and_allkinds`. -/
theorem uniqueVec_length_slice {α : Type} [DecidableEq α] [Inhabited α]
    (s t0 : α) (S2 T2 : List α) (m l : ℕ)
    (hT : ((s :: S2).drop m).take l = t0 :: T2) :
    (uniqueVec (t0 :: T2)).1.length ≤ (uniqueVec (s :: S2)).1.length := by
  rw [uniqueVec_fst_length, uniqueVec_fst_length,
    uniqueVec_per_cons, uniqueVec_per_cons]
  have hmem : ∀ x, x ∈ t0 :: T2 → x ∈ s :: S2 := by
    intro x hx
    rw [← hT] at hx
    exact List.mem_of_mem_drop (List.mem_of_mem_take hx)
  have hsub : (t0 :: T2).toFinset ⊆ (s :: S2).toFinset := fun x hx =>
    List.mem_toFinset.mpr (hmem x (List.mem_toFinset.mp hx))
  have hcard := Finset.card_le_card hsub
  by_cases ht : t0 ∈ T2
  · by_cases hs : s ∈ S2
    · simp only [ht, hs, if_pos]; omega
    · cases m with
      | zero =>
        cases l with
        | zero => simp at hT
        | succ l2 =>
          rw [List.drop_zero, List.take_succ_cons] at hT
          injection hT with h1 h2
          exact absurd (List.mem_of_mem_take (h2 ▸ h1 ▸ ht)) hs
      | succ m2 =>
        rw [List.drop_succ_cons] at hT
        have hns : s ∉ t0 :: T2 := by
          intro hsT
          rw [← hT] at hsT
          exact hs (List.mem_of_mem_drop (List.mem_of_mem_take hsT))
        have hsub2 : (t0 :: T2).toFinset ⊆ S2.toFinset := by
          intro x hx
          have hxS := hmem x (List.mem_toFinset.mp hx)
          have hxns : x ≠ s := by
            intro he
            exact hns (he ▸ List.mem_toFinset.mp hx)
          rcases List.mem_cons.mp hxS with he | hm2
          · exact absurd he hxns
          · exact List.mem_toFinset.mpr hm2
        have hcard2 := Finset.card_le_card hsub2
        have hScard : (s :: S2).toFinset.card = S2.toFinset.card + 1 := by
          rw [List.toFinset_cons]
          rw [Finset.card_insert_of_not_mem (by simpa using hs)]
        simp only [ht, hs, if_true, if_false]
        omega
  · by_cases hs : s ∈ S2 <;>
      simp only [ht, hs, if_true, if_false] <;> omega

theorem smoothSegs_short {T : Type} (L : SplineLib T) (p : SCParams)
    (seg : Seg) (kind : Option Kind) (avg : Bool)
    (h : (uniqueVec seg).1.length ≤ p.k) :
    smoothSegs L p seg kind avg = (seg, kind) := by
  unfold smoothSegs
  rw [if_neg (by omega)]

theorem pairwise_zip_tail {α : Type} {R : α → α → Prop} (l : List α)
    (hp : l.Pairwise R) : ∀ ab ∈ l.zip l.tail, R ab.1 ab.2 := by
  induction l with
  | nil => intro ab h; simp at h
  | cons a t ih =>
    intro ab h
    cases t with
    | nil => simp at h
    | cons b t2 =>
      rw [show (a :: b :: t2).tail = b :: t2 from rfl,
        List.zip_cons_cons] at h
      rcases List.mem_cons.mp h with he | hm
      · subst he
        exact (List.pairwise_cons.mp hp).1 b (by simp)
      · exact ih (List.pairwise_cons.mp hp).2 ab hm

/-- Re-combining the consecutive slices `l[c0:c1], l[c1:c2], ...` of a
list gives back the block `l[c0:last]`; this is what `np.vstack` /
`np.append` over the loop of smooth_contour.py lines 69-78 compute. -/
theorem flatten_slices {β : Type} (l : List β) (c : List ℕ) :
    ∀ a : ℕ, (a :: c).Pairwise (· < ·) →
    (((a :: c).zip c).map
      (fun ab => (l.drop ab.1).take (ab.2 - ab.1))).flatten =
      (l.drop a).take (c.getLastD a - a) := by
  induction c with
  | nil => intro a hp; simp
  | cons b c2 ih =>
    intro a hp
    rw [List.zip_cons_cons, List.map_cons, List.flatten_cons,
      ih b (List.pairwise_cons.mp hp).2]
    have hab : a < b := (List.pairwise_cons.mp hp).1 b (by simp)
    have hbL : b ≤ c2.getLastD b := by
      cases c2 with
      | nil => simp
      | cons x xs =>
        have hmem : (x :: xs).getLastD b ∈ x :: xs := by
          have h1 : (x :: xs).getLast? = some ((x :: xs).getLast (by simp)) :=
            List.getLast?_eq_getLast _ (by simp)
          rw [List.getLastD_eq_getLast?, h1]
          exact List.getLast_mem _
        have := (List.pairwise_cons.mp (List.pairwise_cons.mp hp).2).1
        exact le_of_lt (this _ hmem)
    have hd : l.drop b = (l.drop a).drop (b - a) := by
      rw [List.drop_drop]
      congr 1
      omega
    rw [List.getLastD_cons]
    rw [show c2.getLastD b - a = (b - a) + (c2.getLastD b - b) by omega,
      List.take_add, hd]

theorem breakIdx_pairwise (kind : Kind) :
    (breakIdx kind).Pairwise (· < ·) :=
  List.Pairwise.filter _ (List.pairwise_lt_range _)

theorem breakIdx_lt (kind : Kind) : ∀ x ∈ breakIdx kind, x < kind.length :=
  fun x hx => List.mem_range.mp (List.mem_of_mem_filter hx)

theorem sorted_head_zero (l : List ℕ) (hp : l.Pairwise (· < ·))
    (h0 : 0 ∈ l) : l.head? = some 0 := by
  cases l with
  | nil => simp at h0
  | cons a t =>
    rcases List.mem_cons.mp h0 with he | hm
    · rw [← he]; rfl
    · exact absurd ((List.pairwise_cons.mp hp).1 0 hm) (by omega)

theorem breakIdx_head (kind : Kind) (h : kind.get? 0 = some 1) :
    (breakIdx kind).head? = some 0 := by
  apply sorted_head_zero _ (breakIdx_pairwise kind)
  apply List.mem_filter.mpr
  constructor
  · apply List.mem_range.mpr
    cases kind with
    | nil => simp at h
    | cons a t => simp
  · rw [List.get?_eq_getElem?] at h
    simp [h]

theorem pieceFn_id {T : Type} (L : SplineLib T) (p : SCParams)
    (seg : Seg) (kind : Kind) (a b : ℕ) (hab : a < b) (hb : b ≤ seg.length)
    (hu : (uniqueVec seg).1.length ≤ p.k) :
    pieceFn L p seg kind (a, b) =
      ((seg.drop a).take (b - a), (kind.drop a).take (b - a)) := by
  obtain ⟨s, S2, hsS⟩ : ∃ s S2, seg = s :: S2 := by
    cases seg with
    | nil => simp at hb; omega
    | cons s S2 => exact ⟨s, S2, rfl⟩
  subst hsS
  obtain ⟨t0, T2, hT⟩ : ∃ t0 T2,
      ((s :: S2).drop a).take (b - a) = t0 :: T2 := by
    cases hsl : ((s :: S2).drop a).take (b - a) with
    | nil =>
      have h0 := congrArg List.length hsl
      rw [List.length_take, List.length_drop] at h0
      simp only [List.length_nil, List.length_cons] at h0 hb
      omega
    | cons t0 T2 => exact ⟨t0, T2, rfl⟩
  have hshort : (uniqueVec (((s :: S2).drop a).take (b - a))).1.length ≤
      p.k := by
    rw [hT]
    exact le_trans (uniqueVec_length_slice s t0 S2 T2 a (b - a) hT) hu
  unfold pieceFn
  rw [smoothSegs_short L p _ _ _ hshort]
  rfl

theorem processFilledSeg_id {T : Type} (L : SplineLib T) (p : SCParams)
    (seg : Seg) (kind : Kind) (hlen : kind.length = seg.length)
    (hhead : kind.get? 0 = some 1)
    (hu : (uniqueVec seg).1.length ≤ p.k) :
    processFilledSeg L p (seg, kind) = (seg, kind) := by
  unfold processFilledSeg
  by_cases hc : 1 < kind.count 1
  · rw [if_pos hc]
    have hpw : (ndxOf kind).Pairwise (· < ·) := by
      unfold ndxOf
      apply List.pairwise_append.mpr
      refine ⟨breakIdx_pairwise kind, List.pairwise_singleton _ _, ?_⟩
      intro x hx y hy
      rw [List.mem_singleton] at hy
      exact hy ▸ breakIdx_lt kind x hx
    obtain ⟨br, hbr⟩ : ∃ br, breakIdx kind = 0 :: br := by
      rcases List.head?_eq_some_iff.mp (breakIdx_head kind hhead) with ⟨t, ht⟩
      exact ⟨t, ht⟩
    have hndx : ndxOf kind = 0 :: (br ++ [kind.length]) := by
      unfold ndxOf; rw [hbr]; rfl
    have hzip : ∀ ab ∈ (ndxOf kind).zip (ndxOf kind).tail,
        pieceFn L p seg kind ab =
          ((seg.drop ab.1).take (ab.2 - ab.1),
           (kind.drop ab.1).take (ab.2 - ab.1)) := by
      intro ab hab
      have h1 : ab.1 < ab.2 := pairwise_zip_tail _ hpw ab hab
      have h2 : ab.2 ≤ seg.length := by
        have hmem2 : ab.2 ∈ ndxOf kind := by
          apply List.mem_of_mem_tail
          cases hab2 : ab with
          | mk x y =>
            rw [hab2] at hab
            exact (List.of_mem_zip hab).2
        unfold ndxOf at hmem2
        rcases List.mem_append.mp hmem2 with hx | hx
        · exact le_of_lt (hlen ▸ breakIdx_lt kind _ hx)
        · rw [List.mem_singleton] at hx
          omega
      have hpid := pieceFn_id L p seg kind ab.1 ab.2 h1 h2 hu
      cases ab
      exact hpid
    have hm1 : ((ndxOf kind).zip (ndxOf kind).tail).map
        (fun ab => (pieceFn L p seg kind ab).1) =
        ((ndxOf kind).zip (ndxOf kind).tail).map
        (fun ab => (seg.drop ab.1).take (ab.2 - ab.1)) :=
      List.map_congr_left (fun ab hab => by rw [hzip ab hab])
    have hm2 : ((ndxOf kind).zip (ndxOf kind).tail).map
        (fun ab => (pieceFn L p seg kind ab).2) =
        ((ndxOf kind).zip (ndxOf kind).tail).map
        (fun ab => (kind.drop ab.1).take (ab.2 - ab.1)) :=
      List.map_congr_left (fun ab hab => by rw [hzip ab hab])
    rw [hm1, hm2, hndx]
    rw [show (0 :: (br ++ [kind.length])).tail = br ++ [kind.length]
      from rfl]
    rw [flatten_slices seg (br ++ [kind.length]) 0 (hndx ▸ hpw),
      flatten_slices kind (br ++ [kind.length]) 0 (hndx ▸ hpw)]
    simp [hlen]
  · rw [if_neg hc]
    rw [smoothSegs_short L p seg (some kind) false hu]
    rfl

theorem length_linspace01 (n : ℕ) : (linspace01 n).length = n := by
  unfold linspace01
  rw [List.length_map, List.length_range]

theorem kindsFill_pos (n : ℕ) (h : 0 < n) :
    kindsFill n = 1 :: List.replicate (n - 1) 2 := by
  cases n with
  | zero => omega
  | succ m => simp [kindsFill, List.replicate_succ]

theorem smoothSegs_long_fst {T : Type} (L : SplineLib T) (p : SCParams)
    (seg : Seg) (kind : Option Kind) (avg : Bool)
    (h : p.k < (uniqueVec seg).1.length) :
    (smoothSegs L p seg kind avg).1 =
      if 0 < p.smooth ∧ avg = true then
        List.zipWith meanPt
          ((linspace01 p.int_number).map (fun t => L.splev t
            (L.splprep (uniqueVec seg).1 p.smooth p.k (uniqueVec seg).2)))
          (((linspace01 p.int_number).reverse).map (fun t => L.splev t
            (L.splprep (uniqueVec seg).1.reverse p.smooth p.k
              (uniqueVec seg).2)))
      else
        (linspace01 p.int_number).map (fun t => L.splev t
          (L.splprep (uniqueVec seg).1 p.smooth p.k (uniqueVec seg).2)) := by
  unfold smoothSegs
  rw [if_pos h]

theorem smoothSegs_long_snd {T : Type} (L : SplineLib T) (p : SCParams)
    (seg : Seg) (kind : Option Kind) (avg : Bool)
    (h : p.k < (uniqueVec seg).1.length) :
    (smoothSegs L p seg kind avg).2 =
      kind.map (fun _ => kindsFill p.int_number) := by
  unfold smoothSegs
  rw [if_pos h]

theorem processFilledSeg_id' {T : Type} (L : SplineLib T) (p : SCParams)
    (sk : Seg × Kind) (hlen : sk.2.length = sk.1.length)
    (hhead : sk.2.get? 0 = some 1)
    (hu : (uniqueVec sk.1).1.length ≤ p.k) :
    processFilledSeg L p sk = sk := by
  have h := processFilledSeg_id L p sk.1 sk.2 hlen hhead hu
  rw [Prod.mk.eta] at h
  exact h

theorem restore_hold (f : ℕ → Bool) (j : ℕ) :
    (fun i => if i = j then f j else f i) = f := by
  funext i
  by_cases h : i = j
  · rw [if_pos h, h]
  · rw [if_neg h]

theorem getD_last_eq (l : List ℚ) (h : l ≠ []) :
    l.getD (l.length - 1) 0 = l.getLastD 0 := by
  induction l with
  | nil => exact absurd rfl h
  | cons a t ih =>
    cases t with
    | nil => rfl
    | cons b t2 =>
      have h2 : (a :: b :: t2).getD ((a :: b :: t2).length - 1) 0 =
          (b :: t2).getD ((b :: t2).length - 1) 0 := by
        simp [List.length_cons]
      rw [h2, ih (by simp)]
      have h3 : (b :: t2).getLast? = some ((b :: t2).getLast (by simp)) :=
        List.getLast?_eq_getLast _ (by simp)
      rw [List.getLastD_eq_getLast?, List.getLastD_eq_getLast?,
        List.getLast?_cons_cons, h3]

theorem pointSparse_iff (xe ye : List ℚ) (Hq : List (List ℚ)) (thr : ℚ)
    (pt : Point) :
    pointSparse xe ye Hq thr pt = true ↔
      ∃ i j, i + 1 < xe.length ∧ j + 1 < ye.length ∧
        0 < (Hq.getD i []).getD j 0 ∧ (Hq.getD i []).getD j 0 < thr ∧
        xe.getD i 0 ≤ pt.1 ∧ pt.1 < xe.getD (i + 1) 0 ∧
        ye.getD j 0 ≤ pt.2 ∧ pt.2 < ye.getD (j + 1) 0 := by
  unfold pointSparse
  simp only [List.any_eq_true, List.mem_range, Bool.and_eq_true,
    decide_eq_true_eq]
  constructor
  · rintro ⟨i, hi, j, hj, ⟨⟨⟨⟨⟨h1, h2⟩, h3⟩, h4⟩, h5⟩, h6⟩⟩
    exact ⟨i, j, by omega, by omega, h1, h2, h3, h4, h5, h6⟩
  · rintro ⟨i, j, hi, hj, h1, h2, h3, h4, h5, h6⟩
    exact ⟨i, by omega, j, by omega, ⟨⟨⟨⟨⟨h1, h2⟩, h3⟩, h4⟩, h5⟩, h6⟩⟩

/-- C6: for every segment and kind array, `_smooth_segs` returns both
`seg` and `kind` unchanged whenever the segment has at most `k` unique
points (the length of the `unique_vec` output); whenever it has more
than `k` unique points, the returned segment has exactly `int_number`
points and, if the kind is not `None`, the returned kind is the array
`[1, 2, 2, ..., 2]` of length `int_number` (a positive `int_number` is
required, as `__init__` raises on `kinds_fill[0] = 1` otherwise). -/
theorem smooth_C6_smooth_segs_shape {T : Type} (L : SplineLib T)
    (p : SCParams) (seg : Seg) (kind : Option Kind) (avg : Bool) :
    ((uniqueVec seg).1.length ≤ p.k →
      smoothSegs L p seg kind avg = (seg, kind)) ∧
    (p.k < (uniqueVec seg).1.length →
      (smoothSegs L p seg kind avg).1.length = p.int_number ∧
      (0 < p.int_number →
        (smoothSegs L p seg kind avg).2 =
          kind.map (fun _ => 1 :: List.replicate (p.int_number - 1) 2))) := by
  refine ⟨fun h => smoothSegs_short L p seg kind avg h,
    fun h => ⟨?_, fun hn => ?_⟩⟩
  · rw [smoothSegs_long_fst L p seg kind avg h]
    by_cases ha : 0 < p.smooth ∧ avg = true
    · rw [if_pos ha]
      simp only [List.length_zipWith, List.length_map,
        List.length_reverse, length_linspace01, min_self]
    · rw [if_neg ha]
      simp only [List.length_map, length_linspace01]
  · rw [smoothSegs_long_snd L p seg kind avg h, kindsFill_pos _ hn]

theorem smooth_C6_witness :
    ((uniqueVec [((0 : ℚ), (0 : ℚ))]).1.length ≤ 3 ∧
      smoothSegs LFlag ⟨0, 3, 1⟩ [((0 : ℚ), (0 : ℚ))] (some [1]) false =
        ([((0 : ℚ), (0 : ℚ))], some [1])) ∧
    (3 < (uniqueVec [((0 : ℚ), (0 : ℚ)), (1, 0), (2, 1), (3, 0)]).1.length ∧
      (0 : ℕ) < 1 ∧
      (smoothSegs LFlag ⟨0, 3, 1⟩
        [((0 : ℚ), (0 : ℚ)), (1, 0), (2, 1), (3, 0)] none false).1.length =
        1) := by
  constructor
  · exact ⟨by decide,
      (smooth_C6_smooth_segs_shape LFlag ⟨0, 3, 1⟩ _ _ _).1 (by decide)⟩
  · exact ⟨by decide, by decide,
      ((smooth_C6_smooth_segs_shape LFlag ⟨0, 3, 1⟩ _ _ _).2 (by decide)).1⟩

/-- C2 (amended): for every segment long enough to smooth (more than
`k` unique points), `_smooth_segs` fits the spline to the `unique_vec`
points with the periodic flag set exactly when the segment is closed
(its first point recurs later), and replaces the segment by the spline
evaluated at the `int_number` evenly spaced parameter values of `unew`
(averaging a forward and a reversed such evaluation when `avg` is
requested and `smooth > 0`). -/
theorem smooth_C2_spline_call {T : Type} (L : SplineLib T) (p : SCParams)
    (seg : Seg) (kind : Option Kind)
    (h : p.k < (uniqueVec seg).1.length) :
    (smoothSegs L p seg kind false).1 =
      (linspace01 p.int_number).map (fun t => L.splev t
        (L.splprep (uniqueVec seg).1 p.smooth p.k (uniqueVec seg).2)) ∧
    (0 < p.smooth →
      (smoothSegs L p seg kind true).1 =
        List.zipWith meanPt
          ((linspace01 p.int_number).map (fun t => L.splev t
            (L.splprep (uniqueVec seg).1 p.smooth p.k (uniqueVec seg).2)))
          (((linspace01 p.int_number).reverse).map (fun t => L.splev t
            (L.splprep (uniqueVec seg).1.reverse p.smooth p.k
              (uniqueVec seg).2)))) ∧
    (∀ a t2, seg = a :: t2 → ((uniqueVec seg).2 = 1 ↔ a ∈ t2)) := by
  refine ⟨?_, fun hs => ?_, fun a t2 he => ?_⟩
  · rw [smoothSegs_long_fst L p seg kind false h, if_neg (by simp)]
  · rw [smoothSegs_long_fst L p seg kind true h, if_pos ⟨hs, rfl⟩]
  · subst he
    rw [uniqueVec_per_cons]
    by_cases hm : a ∈ t2 <;> simp [hm]

theorem smooth_C2_witness :
    3 < (uniqueVec [((0 : ℚ), (0 : ℚ)), (1, 0), (2, 1), (3, 0)]).1.length ∧
    (smoothSegs LFlag ⟨0, 3, 1⟩
        [((0 : ℚ), (0 : ℚ)), (1, 0), (2, 1), (3, 0)] none false).1 =
      (linspace01 1).map (fun t => LFlag.splev t
        (LFlag.splprep
          (uniqueVec [((0 : ℚ), (0 : ℚ)), (1, 0), (2, 1), (3, 0)]).1 0 3
          (uniqueVec [((0 : ℚ), (0 : ℚ)), (1, 0), (2, 1), (3, 0)]).2)) :=
  ⟨by decide,
    (smooth_C2_spline_call LFlag ⟨0, 3, 1⟩ _ none (by decide)).1⟩

/-- C2 counterexample: the claim as stated says the spline fit always
receives the periodic flag; on the open segment
`[(0,0), (1,0), (2,1), (3,0)]` (more than `k = 3` unique points, first
point never recurring) the flag actually passed is `per = 0`, and the
resulting points differ from what a fit with the flag set would give
(witnessed through the `LFlag` backend, which records the flag). -/
theorem smooth_C2_counterexample :
    3 < (uniqueVec [((0 : ℚ), (0 : ℚ)), (1, 0), (2, 1), (3, 0)]).1.length ∧
    (uniqueVec [((0 : ℚ), (0 : ℚ)), (1, 0), (2, 1), (3, 0)]).2 = 0 ∧
    (smoothSegs LFlag ⟨0, 3, 1⟩
        [((0 : ℚ), (0 : ℚ)), (1, 0), (2, 1), (3, 0)] none false).1 =
      (linspace01 1).map (fun t => LFlag.splev t
        (LFlag.splprep
          (uniqueVec [((0 : ℚ), (0 : ℚ)), (1, 0), (2, 1), (3, 0)]).1
          0 3 0)) ∧
    (smoothSegs LFlag ⟨0, 3, 1⟩
        [((0 : ℚ), (0 : ℚ)), (1, 0), (2, 1), (3, 0)] none false).1 ≠
      (linspace01 1).map (fun t => LFlag.splev t
        (LFlag.splprep
          (uniqueVec [((0 : ℚ), (0 : ℚ)), (1, 0), (2, 1), (3, 0)]).1
          0 3 1)) :=
  ⟨by decide, by decide, by decide, by decide⟩

/-- C7: for every nonempty point array `a :: t`, `unique_vec` returns a
`useg` whose first row is the first row of the input, with `per = 1`
exactly when the first row occurs again at a later index (and `per = 0`
otherwise). -/
theorem smooth_C7_unique_vec (a : Point) (t : List Point) :
    (uniqueVec (a :: t)).1.head? = some a ∧
    ((uniqueVec (a :: t)).2 = 1 ↔ a ∈ t) ∧
    ((uniqueVec (a :: t)).2 = 0 ↔ a ∉ t) := by
  refine ⟨uniqueVec_fst_head a t, ?_, ?_⟩ <;>
    rw [uniqueVec_per_cons] <;> by_cases h : a ∈ t <;> simp [h]

/-- C8: for every call of `smooth_contour` / `smooth_contourf`
(including every behaviour of the `ContourSet` constructor, raising or
not), the hold state of every axes after the call is what it was before
the call: the `finally` clause restores `washold`. -/
theorem smooth_C8_hold_restored (filledV : Bool)
    (cr : ℕ → List PyVal → Kwargs → Option ℕ) (gcaAx : ℕ)
    (holdOf : ℕ → Bool) (args : List PyVal) (kwargs : Kwargs) :
    (smoothContourCall filledV cr gcaAx holdOf args kwargs).finalHoldOf =
      holdOf := by
  unfold smoothContourCall
  exact restore_hold holdOf _

/-- C10: the smoothing computation is deterministic - two runs of
`_smooth_segs` or `_get_allsegs_and_allkinds` on the same inputs (the
same traced segments and the same parameters) produce identical
outputs; the embedding is a pure function of its arguments. -/
theorem smooth_C10_deterministic {T : Type} (L : SplineLib T)
    (p : SCParams) (seg : Seg) (kind : Option Kind) (avg : Bool)
    (trF : List (List (Seg × Kind))) (trL : List (List Seg)) :
    smoothSegs L p seg kind avg = smoothSegs L p seg kind avg ∧
    getAllsegsAndAllkindsFilled L p trF =
      getAllsegsAndAllkindsFilled L p trF ∧
    getAllsegsAndAllkindsLine L p trL = getAllsegsAndAllkindsLine L p trL :=
  ⟨rfl, rfl, rfl⟩

/-- C4: the segments `SmoothContour` smooths are exactly those returned
by the C tracer, in the same order; in particular, when every traced
segment has at most `k` unique points (so no smoothing applies),
`_get_allsegs_and_allkinds` returns the tracer's segments and kinds
unchanged - i.e. it coincides with the unsmoothed `QuadContourSet`
output - for well-formed tracer output (each kind array as long as its
segment and starting with the MOVETO code 1, as matplotlib's tracer
guarantees). -/
theorem smooth_C4_trace_passthrough {T : Type} (L : SplineLib T)
    (p : SCParams) (trF : List (List (Seg × Kind))) (trL : List (List Seg))
    (hF : ∀ lvl ∈ trF, ∀ sk ∈ lvl, sk.2.length = sk.1.length ∧
      sk.2.get? 0 = some 1 ∧ (uniqueVec sk.1).1.length ≤ p.k)
    (hL : ∀ lvl ∈ trL, ∀ s ∈ lvl, (uniqueVec s).1.length ≤ p.k) :
    getAllsegsAndAllkindsFilled L p trF =
      (trF.map (fun lvl => lvl.map Prod.fst),
       trF.map (fun lvl => lvl.map Prod.snd)) ∧
    getAllsegsAndAllkindsLine L p trL = (trL, none) := by
  constructor
  · unfold getAllsegsAndAllkindsFilled
    rw [Prod.mk.injEq]
    constructor
    · apply List.map_congr_left
      intro lvl hlvl
      apply List.map_congr_left
      intro sk hsk
      obtain ⟨h1, h2, h3⟩ := hF lvl hlvl sk hsk
      rw [processFilledSeg_id' L p sk h1 h2 h3]
    · apply List.map_congr_left
      intro lvl hlvl
      apply List.map_congr_left
      intro sk hsk
      obtain ⟨h1, h2, h3⟩ := hF lvl hlvl sk hsk
      rw [processFilledSeg_id' L p sk h1 h2 h3]
  · unfold getAllsegsAndAllkindsLine
    rw [Prod.mk.injEq]
    refine ⟨?_, rfl⟩
    have h1 : ∀ lvl ∈ trL,
        lvl.map (fun s => (smoothSegs L p s none true).1) = lvl := by
      intro lvl hlvl
      have h2 : lvl.map (fun s => (smoothSegs L p s none true).1) =
          lvl.map (fun s => s) :=
        List.map_congr_left (fun s hs => by
          rw [smoothSegs_short L p s none true (hL lvl hlvl s hs)])
      rw [h2]
      exact List.map_id' lvl
    have h3 : trL.map
        (fun lvl => lvl.map (fun s => (smoothSegs L p s none true).1)) =
        trL.map (fun lvl => lvl) :=
      List.map_congr_left (fun lvl hlvl => h1 lvl hlvl)
    rw [h3]
    exact List.map_id' trL

theorem smooth_C4_witness :
    getAllsegsAndAllkindsFilled LFlag ⟨0, 3, 1⟩
        [[([((0 : ℚ), (0 : ℚ))], [1])]] =
      ([[[((0 : ℚ), (0 : ℚ))]]], [[[1]]]) ∧
    getAllsegsAndAllkindsLine LFlag ⟨0, 3, 1⟩ [[[((0 : ℚ), (0 : ℚ))]]] =
      ([[[((0 : ℚ), (0 : ℚ))]]], none) := by
  have h := smooth_C4_trace_passthrough LFlag ⟨0, 3, 1⟩
    [[([((0 : ℚ), (0 : ℚ))], [1])]] [[[((0 : ℚ), (0 : ℚ))]]]
    (by decide) (by decide)
  simpa using h

/-- C3: the density array `scatter_contour` contours comes from the one
`np.histogram2d` call: the contoured array is the transpose of the
(optionally log-transformed) histogram, the threshold is transformed
alongside it, and the extent is `[xbins[0], xbins[-1], ybins[0],
ybins[-1]]` from the same call's bin edges. -/
theorem scatter_C3_histogram_single_call (x y xe ye : List ℚ)
    (threshold : ℚ) (log_counts : Bool) (lg : ℚ → ℚ)
    (outline0 : List Seg) (inside : Seg → Point → Bool)
    (hx : xe ≠ []) (hy : ye ≠ []) :
    (scatterContour x y xe ye threshold log_counts lg outline0
        inside).contoured =
      (transformH log_counts lg (histogram2d x y xe ye)).transpose ∧
    (scatterContour x y xe ye threshold log_counts lg outline0
        inside).thresholdUsed = thresholdOf log_counts lg threshold ∧
    (scatterContour x y xe ye threshold log_counts lg outline0
        inside).extent =
      [xe.headD 0, xe.getLastD 0, ye.headD 0, ye.getLastD 0] := by
  refine ⟨rfl, rfl, ?_⟩
  have hx0 : xe.getD 0 0 = xe.headD 0 := by cases xe <;> rfl
  have hy0 : ye.getD 0 0 = ye.headD 0 := by cases ye <;> rfl
  show [xe.getD 0 0, xe.getD (xe.length - 1) 0,
      ye.getD 0 0, ye.getD (ye.length - 1) 0] =
    [xe.headD 0, xe.getLastD 0, ye.headD 0, ye.getLastD 0]
  rw [hx0, hy0, getD_last_eq xe hx, getD_last_eq ye hy]

theorem scatter_C3_witness :
    ([(0 : ℚ), 1, 2] : List ℚ) ≠ [] ∧ ([(0 : ℚ), 2] : List ℚ) ≠ [] ∧
    (scatterContour [(2 : ℚ)] [(1 : ℚ)] [0, 1, 2] [0, 2] 100 false id []
        (fun _ _ => false)).extent = [0, 2, 0, 2] := by
  refine ⟨by decide, by decide, ?_⟩
  have h := (scatter_C3_histogram_single_call [(2 : ℚ)] [(1 : ℚ)]
    [0, 1, 2] [0, 2] 100 false id [] (fun _ _ => false)
    (by decide) (by decide)).2.2
  rw [h]
  decide

/-- C1 (amended): `scatter_contour` plots as individual scatter points
exactly those data points lying, with half-open comparisons
`xbins[i] <= x < xbins[i+1]` and `ybins[j] <= y < ybins[j+1]`, in some
histogram bin whose (optionally log-transformed) count satisfies
`0 < count < threshold` (threshold transformed likewise) - so a point
exactly on the outermost right/top bin edge, which the histogram counts
in the last bin, is never scattered - further excluding, when the
lowest-level outline contour has at least one segment, the points lying
inside the first outline polygon. -/
theorem scatter_C1_sparse_selection (x y xe ye : List ℚ) (threshold : ℚ)
    (log_counts : Bool) (lg : ℚ → ℚ) (outline0 : List Seg)
    (inside : Seg → Point → Bool) (pt : Point) :
    pt ∈ (scatterContour x y xe ye threshold log_counts lg outline0
        inside).Xplot ↔
      (pt ∈ x.zip y ∧
        (∃ i j, i + 1 < xe.length ∧ j + 1 < ye.length ∧
          0 < ((transformH log_counts lg (histogram2d x y xe ye)).getD i
            []).getD j 0 ∧
          ((transformH log_counts lg (histogram2d x y xe ye)).getD i
            []).getD j 0 < thresholdOf log_counts lg threshold ∧
          xe.getD i 0 ≤ pt.1 ∧ pt.1 < xe.getD (i + 1) 0 ∧
          ye.getD j 0 ≤ pt.2 ∧ pt.2 < ye.getD (j + 1) 0) ∧
        (∀ poly rest, outline0 = poly :: rest → inside poly pt = false)) := by
  cases outline0 with
  | nil =>
    show pt ∈ (x.zip y).filter (pointSparse xe ye _ _) ↔ _
    rw [List.mem_filter, pointSparse_iff]
    constructor
    · rintro ⟨hmem, hsp⟩
      exact ⟨hmem, hsp, fun poly rest h => by cases h⟩
    · rintro ⟨hmem, hsp, _⟩
      exact ⟨hmem, hsp⟩
  | cons poly rest =>
    show pt ∈ ((x.zip y).filter (pointSparse xe ye _ _)).filter
        (fun q => !(inside poly q)) ↔ _
    rw [List.mem_filter, List.mem_filter, pointSparse_iff]
    constructor
    · rintro ⟨⟨hmem, hsp⟩, hin⟩
      refine ⟨hmem, hsp, ?_⟩
      intro p2 r2 he
      injection he with e1 _
      subst e1
      simpa using hin
    · rintro ⟨hmem, hsp, hout⟩
      refine ⟨⟨hmem, hsp⟩, ?_⟩
      simpa using hout poly rest rfl

/-- C1 counterexample: with data `x = [2]`, `y = [1]`, bin edges
`xe = [0, 1, 2]`, `ye = [0, 2]` and threshold 100, the single data point
`(2, 1)` is counted by `np.histogram2d` in bin `(1, 0)` (the last x-bin
includes its right edge), whose count 1 satisfies `0 < 1 < 100`, and the
outline is empty - so by the claim the point must be scattered; the
code's strict comparison `x < xbins[2]` excludes it and nothing is
plotted. -/
theorem scatter_C1_counterexample :
    (scatterContour [(2 : ℚ)] [(1 : ℚ)] [0, 1, 2] [0, 2] 100 false id []
        (fun _ _ => false)).Xplot = [] ∧
    histogram2d [(2 : ℚ)] [(1 : ℚ)] [0, 1, 2] [0, 2] = [[0], [1]] ∧
    binIdx [(0 : ℚ), 1, 2] 2 = some 1 ∧
    binIdx [(0 : ℚ), 2] 1 = some 0 ∧
    (0 : ℚ) < 1 ∧ (1 : ℚ) < 100 :=
  ⟨by decide, by decide, by decide, by decide, by decide, by decide⟩

/-- C5 (amended): `smooth_contour` and `smooth_contourf` define no
handler - any exception of the `ContourSet` constructor propagates
unchanged (their `try`/`finally` only restores the hold state) - but
`scatter_contour` does catch: its bare `except:` swallows any exception
of the `Path(...).contains_points` route and runs the `nxutils`
fallback instead, whose outcome is what the caller sees. -/
theorem error_C5_propagation :
    (∀ (e : ℕ) (fb : Except ℕ (List Bool)),
      pathFallback (.error e) fb = fb) ∧
    (∀ (v : List Bool) (fb : Except ℕ (List Bool)),
      pathFallback (.ok v) fb = .ok v) ∧
    (∀ (filledV : Bool) (cr : ℕ → List PyVal → Kwargs → Option ℕ)
      (gcaAx : ℕ) (holdOf : ℕ → Bool) (args : List PyVal)
      (kwargs : Kwargs) (e : ℕ),
      cr (smoothContourCall filledV cr gcaAx holdOf args
          kwargs).initRec.ctorAx
        (smoothContourCall filledV cr gcaAx holdOf args
          kwargs).initRec.ctorArgs
        (smoothContourCall filledV cr gcaAx holdOf args
          kwargs).initRec.ctorKwargs = some e →
      (smoothContourCall filledV cr gcaAx holdOf args kwargs).result =
        .error e) := by
  refine ⟨fun e fb => rfl, fun v fb => rfl, ?_⟩
  intro filledV cr gcaAx holdOf args kwargs e h
  unfold smoothContourCall at h ⊢
  dsimp only at h ⊢
  rw [h]

theorem error_C5_witness :
    pathFallback (.error 3) (.ok [true]) = .ok [true] ∧
    (smoothContourCall false (fun _ _ _ => some 7) 0 (fun _ => false) []
        (fun _ => none)).result = .error 7 :=
  ⟨error_C5_propagation.1 3 (.ok [true]),
    error_C5_propagation.2.2 false (fun _ _ _ => some 7) 0
      (fun _ => false) [] (fun _ => none) 7 rfl⟩

/-- C5 counterexample: the claim says no exception raised by an
underlying library call is caught and suppressed; but when the Path
route raises (error code 3), the bare `except:` of scatter_contour.py
lines 128-135 suppresses it and the call yields the fallback's result
instead of propagating the error. -/
theorem error_C5_counterexample :
    pathFallback (.error 3) (.ok [true]) = .ok [true] ∧
    (Except.ok [true] ≠ (Except.error 3 : Except ℕ (List Bool))) :=
  ⟨rfl, fun h => nomatch h⟩

/-- C9: the two wrappers consume only the keywords `smooth`, `k`,
`int_number`, `ax` and `hold` (with defaults 0, 3, 100, the current
axes and no hold change), force `filled` to the wrapper's value
(`False` for `smooth_contour`, `True` for `smooth_contourf`), and pass
every other positional and keyword argument through unchanged to the
`ContourSet` constructor. -/
theorem smooth_C9_kwarg_routing (filledV : Bool)
    (cr : ℕ → List PyVal → Kwargs → Option ℕ) (gcaAx : ℕ)
    (holdOf : ℕ → Bool) (args : List PyVal) (kwargs : Kwargs) :
    (smoothContourCall filledV cr gcaAx holdOf args
        kwargs).initRec.ctorArgs = args ∧
    (smoothContourCall filledV cr gcaAx holdOf args
        kwargs).initRec.ctorKwargs "filled" = some (.bool filledV) ∧
    (smoothContourCall filledV cr gcaAx holdOf args
        kwargs).initRec.ctorKwargs "ax" = none ∧
    (smoothContourCall filledV cr gcaAx holdOf args
        kwargs).initRec.ctorKwargs "hold" = none ∧
    (smoothContourCall filledV cr gcaAx holdOf args
        kwargs).initRec.ctorKwargs "smooth" = none ∧
    (smoothContourCall filledV cr gcaAx holdOf args
        kwargs).initRec.ctorKwargs "k" = none ∧
    (smoothContourCall filledV cr gcaAx holdOf args
        kwargs).initRec.ctorKwargs "int_number" = none ∧
    (∀ s, s ≠ "filled" → s ≠ "ax" → s ≠ "hold" → s ≠ "smooth" →
      s ≠ "k" → s ≠ "int_number" →
      (smoothContourCall filledV cr gcaAx holdOf args
        kwargs).initRec.ctorKwargs s = kwargs s) ∧
    (smoothContourCall filledV cr gcaAx holdOf args
        kwargs).initRec.smoothV = (kwargs "smooth").getD (.rat 0) ∧
    (smoothContourCall filledV cr gcaAx holdOf args
        kwargs).initRec.kV = (kwargs "k").getD (.nat 3) ∧
    (smoothContourCall filledV cr gcaAx holdOf args
        kwargs).initRec.intV = (kwargs "int_number").getD (.nat 100) ∧
    (kwargs "ax" = none →
      (smoothContourCall filledV cr gcaAx holdOf args kwargs).targetAx =
        gcaAx) ∧
    (∀ i, kwargs "ax" = some (.axes i) →
      (smoothContourCall filledV cr gcaAx holdOf args kwargs).targetAx =
        i) ∧
    (kwargs "hold" = none →
      (smoothContourCall filledV cr gcaAx holdOf args
          kwargs).duringHold =
        holdOf ((smoothContourCall filledV cr gcaAx holdOf args
          kwargs).targetAx)) := by
  refine ⟨rfl, ?_, ?_, ?_, ?_, ?_, ?_, ?_, ?_, ?_, ?_, ?_, ?_, ?_⟩
  · simp [smoothContourCall, smoothContourInit, kwSet, kwPop, kwPopD]
  · simp [smoothContourCall, smoothContourInit, kwSet, kwPop, kwPopD]
  · simp [smoothContourCall, smoothContourInit, kwSet, kwPop, kwPopD]
  · simp [smoothContourCall, smoothContourInit, kwSet, kwPop, kwPopD]
  · simp [smoothContourCall, smoothContourInit, kwSet, kwPop, kwPopD]
  · simp [smoothContourCall, smoothContourInit, kwSet, kwPop, kwPopD]
  · intro s h1 h2 h3 h4 h5 h6
    simp [smoothContourCall, smoothContourInit, kwSet, kwPop, kwPopD,
      h1, h2, h3, h4, h5, h6]
  · simp [smoothContourCall, smoothContourInit, kwSet, kwPop, kwPopD]
  · simp [smoothContourCall, smoothContourInit, kwSet, kwPop, kwPopD]
  · simp [smoothContourCall, smoothContourInit, kwSet, kwPop, kwPopD]
  · intro h
    simp [smoothContourCall, smoothContourInit, kwSet, kwPop, kwPopD, h]
  · intro i h
    simp [smoothContourCall, smoothContourInit, kwSet, kwPop, kwPopD, h]
  · intro h
    simp [smoothContourCall, smoothContourInit, kwSet, kwPop, kwPopD, h]

theorem smooth_C9_witness :
    (smoothContourCall true (fun _ _ _ => none) 5 (fun _ => true) []
        (fun _ => none)).initRec.ctorKwargs "filled" =
      some (.bool true) ∧
    (smoothContourCall true (fun _ _ _ => none) 5 (fun _ => true) []
        (fun _ => none)).initRec.ctorKwargs "color" = none ∧
    (smoothContourCall true (fun _ _ _ => none) 5 (fun _ => true) []
        (fun _ => none)).targetAx = 5 ∧
    (smoothContourCall true (fun _ _ _ => none) 5 (fun _ => true) []
        (fun _ => none)).duringHold = true := by
  have h := smooth_C9_kwarg_routing true (fun _ _ _ => none) 5
    (fun _ => true) [] (fun _ => none)
  refine ⟨h.2.1, ?_, h.2.2.2.2.2.2.2.2.2.2.2.1 rfl, ?_⟩
  · have h2 := h.2.2.2.2.2.2.2.1 "color"
      (by decide) (by decide) (by decide) (by decide) (by decide)
      (by decide)
    exact h2
  · exact h.2.2.2.2.2.2.2.2.2.2.2.2.2 rfl

end AstroML
